import Mathlib

/-!
Shallow embedding of `src/main.py` (the `subf` certificate-transparency
subdomain harvester).  Python strings are modelled as `List Char`; the
Python `set` of subdomains is modelled as the list of its distinct
elements in insertion order; the single exception that can escape
`process_data` is modelled with `Except`.
-/

namespace Subf

/-- The ASCII whitespace characters removed by Python `str.strip()`:
space, tab, newline, carriage return, vertical tab, form feed. -/
def pyIsSpace (c : Char) : Bool :=
  c = ' ' || c = '\t' || c = '\n' || c = '\r' || c = Char.ofNat 11 || c = Char.ofNat 12

/-- Python `s.strip()`: remove leading and trailing whitespace. -/
def pystrip (s : List Char) : List Char :=
  ((s.dropWhile pyIsSpace).reverse.dropWhile pyIsSpace).reverse

/-- Python `s.startswith(p)`. -/
def startswith : List Char → List Char → Bool
  | _, [] => true
  | [], _ :: _ => false
  | c :: s, p :: ps => c = p && startswith s ps

/-- The first conditional cut of `clean_subd` (src/main.py lines 68-69):
`if subdomain.startswith('*'): subdomain = subdomain[2:]`.  Note the test
is on a single `*`, not on the two-character sequence `*.`. -/
def cleanStar (t : List Char) : List Char :=
  if startswith t ['*'] then t.drop 2 else t

/-- The second conditional cut of `clean_subd` (src/main.py lines 70-71):
`if subdomain.startswith('www.'): subdomain = subdomain[4:]`. -/
def cleanWWW (t : List Char) : List Char :=
  if startswith t ['w', 'w', 'w', '.'] then t.drop 4 else t

/-- Embedding of `clean_subd` (src/main.py lines 55-72): the `if not
subdomain` falsy guard, a `strip()`, then the two cuts in sequence. -/
def clean_subd (s : List Char) : List Char :=
  if s = [] then [] else cleanWWW (cleanStar (pystrip s))

example : clean_subd "*.www.example.com".data = "example.com".data := by decide
example : clean_subd "example.com".data = "example.com".data := by decide
example : clean_subd "*x.example.com".data = ".example.com".data := by decide
example : clean_subd "*. a".data = [' ', 'a'] := by decide
example : clean_subd "www.www.b".data = "www.b".data := by decide
example : clean_subd "www.*.c".data = "*.c".data := by decide
example : clean_subd "  a.b  ".data = "a.b".data := by decide

/-- Whether the last character, if any, is non-whitespace. -/
def noTrailingWS (l : List Char) : Bool :=
  match l.getLast? with
  | none => true
  | some c => !pyIsSpace c

/-- What is actually true of every string the normalizer inserts. -/
def goodSub (e : List Char) : Prop :=
  e ≠ [] ∧ noTrailingWS e = true

/-- Modelled from the words of claim C2 (the spec cleaning rule as
stated): trim; if the result begins with the two-character sequence
`*.`, remove exactly those two characters; then, if the result begins
with the four-character literal `www.`, remove exactly those four
characters. -/
def cleanRuleClaimed (s : List Char) : List Char :=
  let t := pystrip s
  let t1 := if t.take 2 = ['*', '.'] then t.drop 2 else t
  if t1.take 4 = ['w', 'w', 'w', '.'] then t1.drop 4 else t1

/-- The cleaning rule as amended: the first cut fires on any string
beginning with the single character `*` and removes exactly the first
two characters; the `www.` cut is as the spec states it. -/
def cleanRuleAmended (s : List Char) : List Char :=
  let t := pystrip s
  let t1 := if t.take 1 = ['*'] then t.drop 2 else t
  if t1.take 4 = ['w', 'w', 'w', '.'] then t1.drop 4 else t1

/-! ### Input validator -/

/-- The character class `[a-zA-Z0-9-]` of the validation regex. -/
def isAlnumHyphen (c : Char) : Bool :=
  c.isAlpha || c.isDigit || c = '-'

/-- A non-final group `[a-zA-Z0-9-]+` of the regex (the part before one dot). -/
def middleLabelOk (l : List Char) : Bool :=
  !l.isEmpty && l.all isAlnumHyphen

/-- The final `[a-zA-Z]{2,}` label of the regex. -/
def lastLabelOk (l : List Char) : Bool :=
  2 ≤ l.length && l.all Char.isAlpha

/-- Whether `s` itself (with no trailing newline) matches
`(?:[a-zA-Z0-9-]+\.)+[a-zA-Z]{2,}` in full.  Because neither character
class contains a dot, the groups of the regex are exactly the
dot-separated segments of the string. -/
def matchCore (s : List Char) : Bool :=
  let labels := s.splitOn '.'
  2 ≤ labels.length && labels.dropLast.all middleLabelOk &&
    (match labels.getLast? with
     | some l => lastLabelOk l
     | none => false)

/-- Embedding of `is_valid_domain` (src/main.py lines 16-26):
`re.match(r'^(?:[a-zA-Z0-9-]+\.)+[a-zA-Z]{2,}$', domain) is not None`.
Python `$` matches at the end of the string or just before one final
newline, hence the second disjunct. -/
def is_valid_domain (s : List Char) : Bool :=
  matchCore s ||
    (match s.getLast? with
     | some c => c = '\n' && matchCore s.dropLast
     | none => false)

/-- The declarative reading of `(?:[a-zA-Z0-9-]+\.)+[a-zA-Z]{2,}`: one or
more groups, each a non-empty run of alphanumeric-or-hyphen characters
followed by a literal dot (a hyphen may stand anywhere in a group,
including first), then a final all-alphabetic label of length at least
two. -/
def CoreMatches (s : List Char) : Prop :=
  ∃ (groups : List (List Char)) (last : List Char),
    s = (groups.map (· ++ ['.'])).flatten ++ last ∧
    groups ≠ [] ∧
    (∀ g ∈ groups, g ≠ [] ∧ ∀ c ∈ g, isAlnumHyphen c = true) ∧
    2 ≤ last.length ∧ ∀ c ∈ last, c.isAlpha = true

/-- The declarative reading of the full anchored pattern under Python
`re.match` with `$`: the core pattern, followed by either the end of the
string or one final newline. -/
def RegexMatches (s : List Char) : Prop :=
  ∃ core tail : List Char,
    s = core ++ tail ∧ CoreMatches core ∧ (tail = [] ∨ tail = ['\n'])

example : is_valid_domain "example.com".data = true := by decide
example : is_valid_domain "example".data = false := by decide
example : is_valid_domain "-bad-.com".data = true := by decide
example : is_valid_domain "example.com\n".data = true := by decide
example : is_valid_domain "a..com".data = false := by decide
example : is_valid_domain "a.c0m".data = false := by decide
example : is_valid_domain "a.co".data = true := by decide
example : is_valid_domain "example.community".data = true := by decide

/-! ### Transparency-log client -/

/-- A certificate record as delivered by the log service: each of the two
fields is absent (`none`), JSON `null` (`some none`) or a string
(`some (some s)`). -/
structure Record where
  common_name : Option (Option (List Char))
  name_value : Option (Option (List Char))
deriving DecidableEq

/-- Python `data.get(key, '')`: the empty string when the key is absent,
otherwise the stored value (which may be `None`). -/
def pyGet (field : Option (Option (List Char))) : Option (List Char) :=
  match field with
  | none => some []
  | some v => v

/-- The abstract outcome of the single HTTPS GET issued by `get_crt`:
a response carrying a status code and a body (`none` when `req.json()`
raises, `some l` when it parses to the array `l`), a timeout, or any
other exception raised during the request. -/
inductive FetchOutcome where
  | response (status : Nat) (body : Option (List Record))
  | timeout
  | exn
deriving DecidableEq

/-- Embedding of `get_crt` (src/main.py lines 29-52): on status 200 the
parsed body is returned when truthy (a non-empty array); every other
path — non-200 status, parse failure, timeout, any other exception —
falls through to `return None`. -/
def get_crt (o : FetchOutcome) : Option (List Record) :=
  match o with
  | .response status body =>
      if status = 200 then
        match body with
        | some l => if l ≠ [] then some l else none
        | none => none
      else none
  | .timeout => none
  | .exn => none

/-! ### Record normalizer -/

/-- The function `clean_subd` as applied to the result of `data.get(..., '')`, which
may be the Python `None`: `None` is falsy, so the `if not subdomain`
guard returns the empty string for it. -/
def clean_subd_val (v : Option (List Char)) : List Char :=
  match v with
  | none => []
  | some s => clean_subd s

/-- The single error that can escape `process_data`: the `'\n' in
name_value` membership test raises `TypeError` when `name_value` is
`None`. -/
inductive PyErr where
  | typeError
deriving DecidableEq

/-- The Python `set` of subdomains, modelled as the list of its distinct
elements in first-insertion order.  `set.add` leaves the set unchanged
when the element is already present.  (CPython iterates a set in a
hash-dependent order; the only consumer, `write_subs_file`, sorts, so
only membership matters.) -/
def pySetInsert (acc : List (List Char)) (x : List Char) : List (List Char) :=
  if x ∈ acc then acc else acc ++ [x]

/-- Clean a candidate and insert it, skipping empty strings
(`if cleaned: subdomains.add(cleaned)`). -/
def addClean (acc : List (List Char)) (raw : List Char) : List (List Char) :=
  let cleaned := clean_subd raw
  if cleaned ≠ [] then pySetInsert acc cleaned else acc

/-- The `name_value` half of the loop body (src/main.py lines 91-101):
`'\n' in name_value` raises `TypeError` on the Python `None`; otherwise
the field is split on newlines (or taken whole) and each cleaned
non-empty candidate is inserted. -/
def processNameValue (acc1 : List (List Char)) :
    Option (List Char) → Except PyErr (List (List Char))
  | none => .error .typeError
  | some nv =>
      if '\n' ∈ nv then
        .ok ((nv.splitOn '\n').foldl addClean acc1)
      else
        .ok (addClean acc1 nv)

/-- The body of the `for data in datas` loop of `process_data`
(src/main.py lines 86-101): handle `common_name`, then `name_value`. -/
def processRecord (acc : List (List Char)) (r : Record) :
    Except PyErr (List (List Char)) :=
  let common_name := clean_subd_val (pyGet r.common_name)
  let acc1 := if common_name ≠ [] then pySetInsert acc common_name else acc
  processNameValue acc1 (pyGet r.name_value)

/-- The loop of `process_data`, threading the accumulator and stopping at
the first uncaught exception. -/
def processList (acc : List (List Char)) :
    List Record → Except PyErr (List (List Char))
  | [] => .ok acc
  | r :: rest =>
      match processRecord acc r with
      | .error e => .error e
      | .ok acc2 => processList acc2 rest

/-- Embedding of `process_data` (src/main.py lines 75-102). -/
def process_data (datas : List Record) : Except PyErr (List (List Char)) :=
  processList [] datas

/-! ### File writer -/

/-- Python string comparison, as used by `sorted`: lexicographic by code
point, a proper initial segment comparing below the longer string. -/
def lexLe : List Char → List Char → Bool
  | [], _ => true
  | _ :: _, [] => false
  | a :: as, b :: bs => if a < b then true else if b < a then false else lexLe as bs

/-- The comparison `lexLe` as a proposition, for use with `List.insertionSort`. -/
def lexLeP (a b : List Char) : Prop := lexLe a b = true

instance : DecidableRel lexLeP :=
  fun a b => inferInstanceAs (Decidable (lexLe a b = true))

/-- Embedding of `write_subs_file` (src/main.py lines 105-115), at the
level of the text written: each element of `sorted(subdomains)` followed
by one newline, concatenated.  (The bytes on disk are the UTF-8 encoding
of this character sequence.) -/
def write_subs_file (subdomains : List (List Char)) : List Char :=
  ((subdomains.insertionSort lexLeP).map (· ++ ['\n'])).flatten

/-! ### Output file name -/

/-- Python `domain.replace(".com", "")`: remove every non-overlapping
occurrence of `.com`, scanning left to right. -/
def replaceDotCom : List Char → List Char
  | '.' :: 'c' :: 'o' :: 'm' :: rest => replaceDotCom rest
  | c :: rest => c :: replaceDotCom rest
  | [] => []

/-- The default output file name computed by `main` (src/main.py line
140) when no `-o` (`--output`) option is given:
`f'{domain.replace(".com", "")}-subdomains.txt'`. -/
def default_output_file (domain : List Char) : List Char :=
  replaceDotCom domain ++ "-subdomains.txt".data

/-- The full `output_file` expression of `main`: `args.output or
default`, where an absent or empty (falsy) `-o` value selects the
default. -/
def output_file (oOpt : Option (List Char)) (domain : List Char) : List Char :=
  match oOpt with
  | some o => if o ≠ [] then o else default_output_file domain
  | none => default_output_file domain

/-- Whether the four-character pattern `.com` occurs anywhere in the
string (same scan order as `replaceDotCom`). -/
def hasDotCom : List Char → Bool
  | '.' :: 'c' :: 'o' :: 'm' :: _ => true
  | _ :: rest => hasDotCom rest
  | [] => false

example : default_output_file "example.com".data = "example-subdomains.txt".data := by decide
example : default_output_file "example.community".data = "examplemunity-subdomains.txt".data := by
  decide
example : default_output_file "a.com.example.com".data = "a.example-subdomains.txt".data := by
  decide

end Subf

deriving instance DecidableEq for Except

namespace Subf

/-! ### Lemmas about the lexicographic comparison used by `sorted` -/

theorem lexLe_iff : ∀ a b : List Char, lexLe a b = true ↔ (a = b ∨ List.Lex (· < ·) a b)
  | [], [] => by simp [lexLe]
  | [], b :: bs => by
      simp only [lexLe, true_iff]
      exact Or.inr List.Lex.nil
  | a :: as, [] => by
      simp [lexLe, List.Lex.not_nil_right]
  | a :: as, b :: bs => by
      simp only [lexLe]
      rcases lt_trichotomy a b with h | h | h
      · simp only [if_pos h, true_iff]
        exact Or.inr (List.Lex.rel h)
      · subst h
        simp only [lt_irrefl, if_false, lexLe_iff as bs]
        constructor
        · rintro (rfl | hl)
          · exact Or.inl rfl
          · exact Or.inr (List.Lex.cons hl)
        · rintro (he | hl)
          · exact Or.inl (by injection he)
          · exact Or.inr (List.Lex.cons_iff.mp hl)
      · have hnab : ¬a < b := lt_asymm h
        simp only [if_neg hnab, if_pos h]
        apply iff_of_false (by simp)
        rintro (he | hl)
        · injection he with h1 _
          exact lt_irrefl a (h1 ▸ h)
        · cases hl with
          | cons hl' => exact lt_irrefl a h
          | rel hr => exact lt_asymm h hr

theorem lexLeP_total : ∀ a b : List Char, lexLeP a b ∨ lexLeP b a := by
  intro a b
  unfold lexLeP
  rw [lexLe_iff, lexLe_iff]
  have h3 : List.Lex (· < ·) a b ∨ a = b ∨ List.Lex (· < ·) b a := trichotomous a b
  rcases h3 with h | h | h
  · exact Or.inl (Or.inr h)
  · exact Or.inl (Or.inl h)
  · exact Or.inr (Or.inr h)

theorem lexLeP_trans : ∀ a b c : List Char, lexLeP a b → lexLeP b c → lexLeP a c := by
  intro a b c hab hbc
  unfold lexLeP at *
  rw [lexLe_iff] at *
  rcases hab with rfl | hab
  · exact hbc
  rcases hbc with rfl | hbc
  · exact Or.inr hab
  · have h3 : List.Lex (· < ·) a c := Trans.trans hab hbc
    exact Or.inr h3

theorem lexLeP_antisymm : ∀ a b : List Char, lexLeP a b → lexLeP b a → a = b := by
  intro a b hab hba
  unfold lexLeP at *
  rw [lexLe_iff] at *
  rcases hab with rfl | hab
  · rfl
  rcases hba with rfl | hba
  · rfl
  · have h3 : ¬List.Lex (· < ·) b a := asymm hab
    exact absurd hba h3

instance : IsTotal (List Char) lexLeP := ⟨lexLeP_total⟩

instance : IsTrans (List Char) lexLeP := ⟨lexLeP_trans⟩

instance : IsAntisymm (List Char) lexLeP := ⟨lexLeP_antisymm⟩

/-! ### Structure of `clean_subd` output -/

theorem cleanStar_eq_drop (t : List Char) : ∃ k, cleanStar t = t.drop k := by
  unfold cleanStar
  split
  · exact ⟨2, rfl⟩
  · exact ⟨0, rfl⟩

theorem cleanWWW_eq_drop (t : List Char) : ∃ k, cleanWWW t = t.drop k := by
  unfold cleanWWW
  split
  · exact ⟨4, rfl⟩
  · exact ⟨0, rfl⟩

/-- Every `clean_subd` result is a suffix of the stripped input: the two
cuts only ever remove characters from the front. -/
theorem clean_subd_eq_drop (s : List Char) : ∃ k, clean_subd s = (pystrip s).drop k := by
  unfold clean_subd
  split
  · exact ⟨0, by simp_all [pystrip]⟩
  · obtain ⟨k1, h1⟩ := cleanStar_eq_drop (pystrip s)
    obtain ⟨k2, h2⟩ := cleanWWW_eq_drop (cleanStar (pystrip s))
    exact ⟨k1 + k2, by rw [h2, h1, List.drop_drop]⟩

theorem noTrailingWS_pystrip (s : List Char) : noTrailingWS (pystrip s) = true := by
  unfold noTrailingWS pystrip
  rw [List.getLast?_reverse]
  have h := List.head?_dropWhile_not pyIsSpace ((s.dropWhile pyIsSpace).reverse)
  cases hh : ((s.dropWhile pyIsSpace).reverse.dropWhile pyIsSpace).head? with
  | none => rfl
  | some c =>
      rw [hh] at h
      simp [h]

theorem noTrailingWS_drop (l : List Char) (n : Nat) (h : noTrailingWS l = true) :
    noTrailingWS (l.drop n) = true := by
  obtain ⟨t, ht⟩ := List.drop_suffix n l
  cases hh : (l.drop n).getLast? with
  | none => simp [noTrailingWS, hh]
  | some c =>
      rw [← ht, noTrailingWS, List.getLast?_append, hh] at h
      simp only [Option.or_some] at h
      simp [noTrailingWS, hh, h]

theorem noTrailingWS_clean_subd (s : List Char) : noTrailingWS (clean_subd s) = true := by
  obtain ⟨k, hk⟩ := clean_subd_eq_drop s
  rw [hk]
  exact noTrailingWS_drop _ _ (noTrailingWS_pystrip s)

/-! ### Elements of the subdomain set -/

theorem mem_pySetInsert {acc : List (List Char)} {x e : List Char}
    (h : e ∈ pySetInsert acc x) : e ∈ acc ∨ e = x := by
  unfold pySetInsert at h
  split at h
  · exact Or.inl h
  · rcases List.mem_append.mp h with h | h
    · exact Or.inl h
    · simp only [List.mem_singleton] at h
      exact Or.inr h

theorem mem_addClean {acc : List (List Char)} {raw e : List Char}
    (h : e ∈ addClean acc raw) :
    e ∈ acc ∨ (e = clean_subd raw ∧ clean_subd raw ≠ []) := by
  simp only [addClean] at h
  split at h
  · rcases mem_pySetInsert h with h | h
    · exact Or.inl h
    · exact Or.inr ⟨h, by assumption⟩
  · exact Or.inl h

theorem foldl_addClean_good {names : List (List Char)} {acc : List (List Char)}
    (hacc : ∀ e ∈ acc, goodSub e) : ∀ e ∈ names.foldl addClean acc, goodSub e := by
  induction names generalizing acc with
  | nil => exact hacc
  | cons n ns ih =>
      intro e he
      refine ih ?_ e he
      intro x hx
      rcases mem_addClean hx with hx | ⟨rfl, hne⟩
      · exact hacc x hx
      · exact ⟨hne, noTrailingWS_clean_subd n⟩

theorem clean_subd_val_good {v : Option (List Char)}
    (h : clean_subd_val v ≠ []) : goodSub (clean_subd_val v) := by
  cases v with
  | none => exact absurd rfl h
  | some s => exact ⟨h, noTrailingWS_clean_subd s⟩

theorem processRecord_good {acc acc2 : List (List Char)} {r : Record}
    (hr : processRecord acc r = .ok acc2) (hacc : ∀ e ∈ acc, goodSub e) :
    ∀ e ∈ acc2, goodSub e := by
  simp only [processRecord] at hr
  have hacc1 : ∀ e ∈ (if clean_subd_val (pyGet r.common_name) ≠ []
      then pySetInsert acc (clean_subd_val (pyGet r.common_name)) else acc), goodSub e := by
    split
    · intro e he
      rcases mem_pySetInsert he with he | he
      · exact hacc e he
      · subst he
        exact clean_subd_val_good (by assumption)
    · exact hacc
  rcases hget : pyGet r.name_value with _ | nv
  · rw [hget] at hr
    simp only [processNameValue] at hr
    cases hr
  · rw [hget] at hr
    simp only [processNameValue] at hr
    by_cases hmem : ('\n' ∈ nv)
    · rw [if_pos hmem] at hr
      cases hr
      exact foldl_addClean_good hacc1
    · rw [if_neg hmem] at hr
      cases hr
      intro e he
      rcases mem_addClean he with he | ⟨rfl, hne⟩
      · exact hacc1 e he
      · exact ⟨hne, noTrailingWS_clean_subd nv⟩

theorem processList_good {datas : List Record} {acc S : List (List Char)}
    (h : processList acc datas = .ok S) (hacc : ∀ e ∈ acc, goodSub e) :
    ∀ e ∈ S, goodSub e := by
  induction datas generalizing acc with
  | nil =>
      cases h
      exact hacc
  | cons r rest ih =>
      simp only [processList] at h
      rcases hrec : processRecord acc r with e | acc2
      · rw [hrec] at h
        cases h
      · rw [hrec] at h
        exact ih h (processRecord_good hrec hacc)

/-- Fixed points of `clean_subd`: an input that is already stripped and
starts with neither `*` nor `www.` is returned unchanged. -/
theorem clean_subd_fixed {t : List Char} (h1 : pystrip t = t)
    (h2 : startswith t ['*'] = false)
    (h3 : startswith t ['w', 'w', 'w', '.'] = false) : clean_subd t = t := by
  unfold clean_subd cleanWWW cleanStar
  by_cases ht : t = []
  · simp [ht]
  · simp [ht, h1, h2, h3]

/-! ### `startswith` characterisations -/

theorem startswith_iff_append : ∀ t p : List Char, startswith t p = true ↔ ∃ r, t = p ++ r
  | t, [] => by simp [startswith]
  | [], p :: ps => by simp [startswith]
  | c :: t, p :: ps => by
      simp only [startswith, Bool.and_eq_true, decide_eq_true_eq,
        startswith_iff_append t ps, List.cons_append, List.cons.injEq]
      constructor
      · rintro ⟨rfl, r, rfl⟩
        exact ⟨r, rfl, rfl⟩
      · rintro ⟨r, rfl, h2⟩
        exact ⟨rfl, r, h2⟩

theorem startswith_iff_take (t p : List Char) :
    startswith t p = true ↔ t.take p.length = p := by
  rw [startswith_iff_append]
  constructor
  · rintro ⟨r, rfl⟩
    simp [List.take_left']
  · intro h
    refine ⟨t.drop p.length, ?_⟩
    nth_rewrite 1 [← List.take_append_drop p.length t]
    rw [h]

/-- The cleaning function agrees everywhere with the amended spec rule
(`*`-cut on any leading asterisk, then the `www.`-cut). -/
theorem clean_subd_eq_cleanRuleAmended (s : List Char) : clean_subd s = cleanRuleAmended s := by
  simp only [clean_subd, cleanRuleAmended, cleanWWW, cleanStar]
  by_cases hs : s = []
  · subst hs
    rfl
  · rw [if_neg hs]
    have h1 : startswith (pystrip s) ['*'] = true ↔ (pystrip s).take 1 = ['*'] :=
      startswith_iff_take (pystrip s) ['*']
    by_cases hstar : startswith (pystrip s) ['*'] = true
    · rw [if_pos hstar, if_pos (h1.mp hstar)]
      have h2 : startswith ((pystrip s).drop 2) ['w', 'w', 'w', '.'] = true ↔
          ((pystrip s).drop 2).take 4 = ['w', 'w', 'w', '.'] :=
        startswith_iff_take _ _
      by_cases hw : startswith ((pystrip s).drop 2) ['w', 'w', 'w', '.'] = true
      · rw [if_pos hw, if_pos (h2.mp hw)]
      · rw [if_neg hw, if_neg fun hc => hw (h2.mpr hc)]
    · rw [if_neg hstar, if_neg fun hc => hstar (h1.mpr hc)]
      have h2 : startswith (pystrip s) ['w', 'w', 'w', '.'] = true ↔
          (pystrip s).take 4 = ['w', 'w', 'w', '.'] :=
        startswith_iff_take _ _
      by_cases hw : startswith (pystrip s) ['w', 'w', 'w', '.'] = true
      · rw [if_pos hw, if_pos (h2.mp hw)]
      · rw [if_neg hw, if_neg fun hc => hw (h2.mpr hc)]

/-! ### `replace(".com", "")` -/

theorem replaceDotCom_cons_of_not (c : Char) (rest : List Char)
    (hne : ∀ r1 : List Char, c = '.' → rest = 'c' :: 'o' :: 'm' :: r1 → False) :
    replaceDotCom (c :: rest) = c :: replaceDotCom rest := by
  rw [replaceDotCom.eq_def]
  split
  · rename_i r1 heq
    injection heq with h1 h2
    exact (hne r1 h1 h2).elim
  · rename_i c2 rest2 hne2 heq
    injection heq with h1 h2
    rw [h1, h2]
  · rename_i heq
    cases heq

theorem hasDotCom_cons_of_not (c : Char) (rest : List Char)
    (hne : ∀ r1 : List Char, c = '.' → rest = 'c' :: 'o' :: 'm' :: r1 → False) :
    hasDotCom (c :: rest) = hasDotCom rest := by
  rw [hasDotCom.eq_def]
  split
  · rename_i r1 heq
    injection heq with h1 h2
    exact (hne r1 h1 h2).elim
  · rename_i c2 rest2 hne2 heq
    injection heq with h1 h2
    rw [h2]
  · rename_i heq
    cases heq

/-- When `.com` does not occur in the string, `replace` leaves it
unchanged. -/
theorem replaceDotCom_no_occ : ∀ s : List Char, hasDotCom s = false → replaceDotCom s = s := by
  intro s
  induction s using replaceDotCom.induct with
  | case1 rest => intro h; simp [hasDotCom] at h
  | case2 c rest hne ih =>
      intro h
      rw [hasDotCom_cons_of_not c rest hne] at h
      rw [replaceDotCom_cons_of_not c rest hne, ih h]
  | case3 => intro _; rfl

/-! ### Totality of the normalizer away from null `name_value` -/

theorem processNameValue_ok (acc1 : List (List Char)) (v : List Char) :
    ∃ S, processNameValue acc1 (some v) = Except.ok S := by
  by_cases hm : '\n' ∈ v
  · exact ⟨(v.splitOn '\n').foldl addClean acc1, by simp [processNameValue, hm]⟩
  · exact ⟨addClean acc1 v, by simp [processNameValue, hm]⟩

theorem pyGet_eq_none_iff (f : Option (Option (List Char))) :
    pyGet f = none ↔ f = some none := by
  cases f with
  | none => simp [pyGet]
  | some o => cases o <;> simp [pyGet]

theorem processList_total :
    ∀ (datas : List Record) (acc : List (List Char)),
      (∀ r ∈ datas, r.name_value ≠ some none) →
      ∃ S, processList acc datas = Except.ok S := by
  intro datas
  induction datas with
  | nil => exact fun acc _ => ⟨acc, rfl⟩
  | cons r rest ih =>
      intro acc hr
      rcases hg : pyGet r.name_value with _ | v
      · exact absurd ((pyGet_eq_none_iff r.name_value).mp hg)
          (hr r (List.mem_cons_self r rest))
      · have hrec : ∃ S1, processRecord acc r = Except.ok S1 := by
          unfold processRecord
          rw [hg]
          exact processNameValue_ok _ v
        obtain ⟨S1, hS1⟩ := hrec
        obtain ⟨S, hS⟩ := ih S1 fun x hx => hr x (List.mem_cons_of_mem _ hx)
        refine ⟨S, ?_⟩
        simp only [processList]
        rw [hS1]
        exact hS

/-! ### Claim C1 -/

/-- C1 (corrected): when `process_data` returns a set, every element is
non-empty and free of trailing whitespace.  (The stronger spec invariant
fails: leading whitespace, a leading `*.` or a leading `www.` can
survive, because each cut is applied once and the `*`-cut checks only
one character — see the counterexample.) -/
theorem c1_subdomain_set_elements :
    ∀ (datas : List Record) (S : List (List Char)),
      process_data datas = Except.ok S →
      ∀ e ∈ S, e ≠ [] ∧ noTrailingWS e = true := by
  intro datas S h e he
  unfold process_data at h
  exact processList_good h (by intro x hx; cases hx) e he

/-- C1 counterexample: one record inserts `" a"` (leading whitespace),
`"www.b"` (leading `www.`) and `"*.c"` (leading `*.`) into the set. -/
theorem c1_invariant_counterexample :
    process_data [⟨some (some "*. a".data), some (some "www.www.b\nwww.*.c".data)⟩] =
      Except.ok [[' ', 'a'], "www.b".data, "*.c".data] ∧
    pyIsSpace ' ' = true ∧
    ([' ', 'a']).head? = some ' ' ∧
    startswith "www.b".data ['w', 'w', 'w', '.'] = true ∧
    startswith "*.c".data ['*', '.'] = true := by decide

theorem c1_subdomain_set_elements_witness :
    "a.b".data ≠ [] ∧ noTrailingWS "a.b".data = true :=
  c1_subdomain_set_elements
    [⟨some (some "a.b".data), some (some "c.d".data)⟩]
    ["a.b".data, "c.d".data] (by decide) "a.b".data (by decide)

/-! ### Claim C2 -/

/-- C2 (corrected): the cleaning function trims, then removes exactly the
first two characters if and only if the trimmed string begins with the
single character `*` (not the two-character sequence `*.`), then removes
exactly four characters if and only if the result begins with `www.`. -/
theorem c2_cleaning_rule :
    ∀ s : List Char, clean_subd s = cleanRuleAmended s :=
  clean_subd_eq_cleanRuleAmended

/-- C2 counterexample: a string beginning with `*` but not `*.` still
loses its first two characters, where the claimed rule keeps them. -/
theorem c2_cleaning_rule_counterexample :
    clean_subd "*x.example.com".data = ".example.com".data ∧
    cleanRuleClaimed "*x.example.com".data = "*x.example.com".data ∧
    clean_subd "*x.example.com".data ≠ cleanRuleClaimed "*x.example.com".data := by decide

/-! ### Claim C3 -/

/-- C3 (corrected): cleaning is idempotent on every input whose cleaned
form is already clean — stripped, and starting with neither `*` nor
`www.` — and in particular on the two spec examples.  (Unrestricted
idempotence fails: see the counterexample.) -/
theorem c3_clean_idempotent_on_clean :
    (∀ s : List Char, pystrip (clean_subd s) = clean_subd s →
      startswith (clean_subd s) ['*'] = false →
      startswith (clean_subd s) ['w', 'w', 'w', '.'] = false →
      clean_subd (clean_subd s) = clean_subd s) ∧
    clean_subd "*.www.example.com".data = "example.com".data ∧
    clean_subd "example.com".data = "example.com".data :=
  ⟨fun _ h1 h2 h3 => clean_subd_fixed h1 h2 h3, by decide, by decide⟩

/-- C3 counterexample: cleaning `"*.*.example.com"` once yields
`"*.example.com"`, and cleaning again changes it to `"example.com"`. -/
theorem c3_idempotence_counterexample :
    clean_subd "*.*.example.com".data = "*.example.com".data ∧
    clean_subd (clean_subd "*.*.example.com".data) = "example.com".data ∧
    clean_subd (clean_subd "*.*.example.com".data) ≠ clean_subd "*.*.example.com".data := by
  decide

theorem c3_clean_idempotent_witness :
    clean_subd (clean_subd "sub.example.com".data) = clean_subd "sub.example.com".data :=
  c3_clean_idempotent_on_clean.1 "sub.example.com".data (by decide) (by decide) (by decide)

/-! ### Claim C5 -/

/-- C5 (corrected): the default output name removes every occurrence of
the substring `.com` from the domain (not only a trailing suffix) and
appends `-subdomains.txt`; a domain without any `.com` occurrence is
used verbatim. -/
theorem c5_default_output_name :
    (∀ d : List Char, hasDotCom d = false →
      default_output_file d = d ++ "-subdomains.txt".data) ∧
    default_output_file "example.community".data = "examplemunity-subdomains.txt".data ∧
    default_output_file "a.com.example.com".data = "a.example-subdomains.txt".data := by
  refine ⟨?_, by decide, by decide⟩
  intro d h
  unfold default_output_file
  rw [replaceDotCom_no_occ d h]

/-- C5 counterexample: `example.community` is a valid domain with no
trailing `.com`, yet its interior `.com` is removed from the default
file name. -/
theorem c5_output_name_counterexample :
    is_valid_domain "example.community".data = true ∧
    default_output_file "example.community".data = "examplemunity-subdomains.txt".data ∧
    default_output_file "example.community".data ≠ "example.community-subdomains.txt".data := by
  decide

theorem c5_default_output_name_witness :
    default_output_file "a.b".data = "a.b".data ++ "-subdomains.txt".data :=
  c5_default_output_name.1 "a.b".data (by decide)

/-! ### Claim C6 -/

/-- C6 (confirmed): `get_crt` is a total function of the request outcome
— no outcome propagates an exception — returning the parsed array
exactly on an HTTP 200 response whose body is a non-empty JSON array,
and `None` on every other outcome (non-200 status, unparseable body,
empty array, timeout, any other exception). -/
theorem c6_get_crt_never_raises :
    (∀ o : FetchOutcome, get_crt o = none ∨
      ∃ l, o = FetchOutcome.response 200 (some l) ∧ l ≠ [] ∧ get_crt o = some l) ∧
    (∀ (r : Record) (ls : List Record),
      get_crt (FetchOutcome.response 200 (some (r :: ls))) = some (r :: ls)) ∧
    get_crt FetchOutcome.timeout = none ∧
    get_crt FetchOutcome.exn = none ∧
    get_crt (FetchOutcome.response 200 (some [])) = none ∧
    (∀ s, get_crt (FetchOutcome.response s none) = none) ∧
    (∀ b, get_crt (FetchOutcome.response 404 b) = none) := by
  refine ⟨?_, fun r ls => rfl, rfl, rfl, rfl, ?_, ?_⟩
  · intro o
    rcases o with ⟨status, body⟩ | _ | _
    · by_cases hst : status = 200
      · subst hst
        rcases body with _ | (_ | ⟨r, ls⟩)
        · exact Or.inl rfl
        · exact Or.inl rfl
        · exact Or.inr ⟨r :: ls, rfl, by simp, rfl⟩
      · exact Or.inl (by simp [get_crt, hst])
    · exact Or.inl rfl
    · exact Or.inl rfl
  · intro s
    by_cases hs : s = 200 <;> simp [get_crt, hs]
  · intro b
    rcases b with _ | l <;> simp [get_crt]

/-! ### Claim C8 -/

/-- C8 (confirmed): a record whose `common_name` is absent or null is
processed exactly like one whose `common_name` is the empty string — no
exception, no insertion from that field — and its `name_value` is still
processed; the spec example yields exactly `{"x.example.com"}`. -/
theorem c8_common_name_null_safe :
    (∀ (acc : List (List Char)) (cn nv : Option (Option (List Char))),
      cn = none ∨ cn = some none →
      processRecord acc ⟨cn, nv⟩ = processRecord acc ⟨some (some []), nv⟩) ∧
    (∀ (acc : List (List Char)) (cn : Option (Option (List Char))) (v : List Char),
      cn = none ∨ cn = some none →
      ∃ S, processRecord acc ⟨cn, some (some v)⟩ = Except.ok S) ∧
    process_data [⟨some none, some (some "x.example.com".data)⟩] =
      Except.ok ["x.example.com".data] := by
  refine ⟨?_, ?_, by decide⟩
  · rintro acc cn nv (rfl | rfl) <;> rfl
  · rintro acc cn v (rfl | rfl) <;> exact processNameValue_ok acc v

theorem c8_common_name_null_safe_witness :
    processRecord [] ⟨none, some (some "q.r".data)⟩ =
      processRecord [] ⟨some (some []), some (some "q.r".data)⟩ :=
  c8_common_name_null_safe.1 [] none (some (some "q.r".data)) (Or.inl rfl)

/-! ### Claim C10 -/

/-- C10 (confirmed): `process_data` is not total — any record whose
`name_value` is present but null makes the `'\n' in name_value` test
raise `TypeError`, whatever the other fields and records — while under
the precondition that every present `name_value` is a string,
`process_data` always returns a set. -/
theorem c10_name_value_null_raises :
    (∀ (cn : Option (Option (List Char))) (rest : List Record),
      process_data (⟨cn, some none⟩ :: rest) = Except.error PyErr.typeError) ∧
    (∀ datas : List Record, (∀ r ∈ datas, r.name_value ≠ some none) →
      ∃ S, process_data datas = Except.ok S) := by
  constructor
  · intro cn rest
    rfl
  · intro datas h
    exact processList_total datas [] h

theorem c10_name_value_null_raises_witness :
    ∃ S, process_data [⟨some (some "a.b".data), some (some "c.d".data)⟩] = Except.ok S :=
  c10_name_value_null_raises.2 [⟨some (some "a.b".data), some (some "c.d".data)⟩] (by decide)

/-! ### Claim C9 -/

/-- C9 (confirmed): the file content is the members of the set, each
exactly once, in lexicographic order, each line closed by one newline
and nothing else; and the content depends only on the membership of the
set, not on the order in which elements were accumulated. -/
theorem c9_write_subs_file_sorted :
    (∀ sub : List (List Char), ∃ lines : List (List Char),
      write_subs_file sub = (lines.map (· ++ ['\n'])).flatten ∧
      lines.Sorted (fun a b => a = b ∨ List.Lex (· < ·) a b) ∧
      (∀ x, x ∈ lines ↔ x ∈ sub) ∧
      (sub.Nodup → lines.Nodup)) ∧
    (∀ s t : List (List Char), s.Nodup → t.Nodup → (∀ x, x ∈ s ↔ x ∈ t) →
      write_subs_file s = write_subs_file t) := by
  constructor
  · intro sub
    refine ⟨sub.insertionSort lexLeP, rfl, ?_, ?_, ?_⟩
    · have hs : (sub.insertionSort lexLeP).Sorted lexLeP :=
        List.sorted_insertionSort lexLeP sub
      exact List.Pairwise.imp (fun h => (lexLe_iff _ _).mp h) hs
    · intro x
      exact List.mem_insertionSort lexLeP
    · intro hnd
      exact (List.perm_insertionSort lexLeP sub).nodup_iff.mpr hnd
  · intro s t hs ht hmem
    have hperm : s.Perm t := (List.perm_ext_iff_of_nodup hs ht).mpr hmem
    have hsort : s.insertionSort lexLeP = t.insertionSort lexLeP :=
      List.eq_of_perm_of_sorted
        ((List.perm_insertionSort lexLeP s).trans
          (hperm.trans (List.perm_insertionSort lexLeP t).symm))
        (List.sorted_insertionSort lexLeP s)
        (List.sorted_insertionSort lexLeP t)
    unfold write_subs_file
    rw [hsort]

theorem c9_write_subs_file_sorted_witness :
    write_subs_file ["b.x".data, "a.x".data] = write_subs_file ["a.x".data, "b.x".data] :=
  c9_write_subs_file_sorted.2 ["b.x".data, "a.x".data] ["a.x".data, "b.x".data]
    (by decide) (by decide) (by intro x; simp [or_comm])

/-! ### Claim C4 -/

/-- Writing the decomposition `groups then final label` as an
`intercalate`, to connect with `splitOn`. -/
theorem intercalate_concat_eq :
    ∀ (groups : List (List Char)) (last : List Char),
      ['.'].intercalate (groups ++ [last]) = (groups.map (· ++ ['.'])).flatten ++ last
  | [], last => by simp [List.intercalate]
  | [g], last => by simp [List.intercalate]
  | g :: g2 :: gs2, last => by
      have ih := intercalate_concat_eq (g2 :: gs2) last
      simp only [List.intercalate] at ih ⊢
      simp only [List.cons_append] at ih
      simp only [List.cons_append, List.intersperse_cons₂, List.flatten_cons, List.map_cons,
        List.nil_append]
      rw [ih]
      simp [List.append_assoc]

theorem matchCore_iff (s : List Char) : matchCore s = true ↔ CoreMatches s := by
  constructor
  · intro h
    simp only [matchCore, Bool.and_eq_true, decide_eq_true_eq] at h
    obtain ⟨⟨hlen, hmid⟩, hlast⟩ := h
    cases hg : (s.splitOn '.').getLast? with
    | none =>
        rw [hg] at hlast
        cases hlast
    | some last =>
        rw [hg] at hlast
        refine ⟨(s.splitOn '.').dropLast, last, ?_, ?_, ?_, ?_, ?_⟩
        · have h1 : ['.'].intercalate (s.splitOn '.') = s := List.intercalate_splitOn s '.'
          have h2 : (s.splitOn '.').dropLast ++ [last] = s.splitOn '.' :=
            List.dropLast_append_getLast? last (by simp [hg])
          rw [← intercalate_concat_eq, h2, h1]
        · intro h0
          have hl := congrArg List.length h0
          rw [List.length_dropLast] at hl
          simp only [List.length_nil] at hl
          omega
        · intro g hgmem
          have hml := List.all_eq_true.mp hmid g hgmem
          simp only [middleLabelOk, Bool.and_eq_true, List.all_eq_true,
            Bool.not_eq_true', List.isEmpty_eq_false] at hml
          exact ⟨hml.1, hml.2⟩
        · simp only [lastLabelOk, Bool.and_eq_true, decide_eq_true_eq] at hlast
          exact hlast.1
        · simp only [lastLabelOk, Bool.and_eq_true, List.all_eq_true] at hlast
          exact hlast.2
  · rintro ⟨groups, last, rfl, hgne, hgroups, hlen, halpha⟩
    have hnotin : ∀ l ∈ groups ++ [last], '.' ∉ l := by
      intro l hl
      rcases List.mem_append.mp hl with hl | hl
      · intro hdot
        exact absurd ((hgroups l hl).2 '.' hdot) (by decide)
      · simp only [List.mem_singleton] at hl
        subst hl
        intro hdot
        exact absurd (halpha '.' hdot) (by decide)
    have hsp : (['.'].intercalate (groups ++ [last])).splitOn '.' = groups ++ [last] :=
      List.splitOn_intercalate (groups ++ [last]) '.' hnotin (by simp)
    rw [← intercalate_concat_eq]
    simp only [matchCore, hsp]
    rw [List.dropLast_concat, List.getLast?_concat]
    simp only [Bool.and_eq_true, decide_eq_true_eq, List.all_eq_true]
    refine ⟨⟨?_, ?_⟩, ?_⟩
    · rw [List.length_append]
      cases groups with
      | nil => exact absurd rfl hgne
      | cons _ _ => simp
    · intro g hg
      rcases hgroups g hg with ⟨hne, hc⟩
      simp only [middleLabelOk, Bool.and_eq_true, List.all_eq_true,
        Bool.not_eq_true', List.isEmpty_eq_false]
      exact ⟨hne, hc⟩
    · simp only [lastLabelOk, Bool.and_eq_true, decide_eq_true_eq, List.all_eq_true]
      exact ⟨hlen, halpha⟩

theorem is_valid_domain_iff (s : List Char) : is_valid_domain s = true ↔ RegexMatches s := by
  unfold is_valid_domain RegexMatches
  rw [Bool.or_eq_true]
  constructor
  · rintro (h | h)
    · exact ⟨s, [], by simp, (matchCore_iff s).mp h, Or.inl rfl⟩
    · cases hg : s.getLast? with
      | none =>
          rw [hg] at h
          cases h
      | some c =>
          rw [hg] at h
          rw [Bool.and_eq_true, decide_eq_true_eq] at h
          obtain ⟨rfl, hcore⟩ := h
          refine ⟨s.dropLast, ['\n'], ?_, (matchCore_iff _).mp hcore, Or.inr rfl⟩
          exact (List.dropLast_append_getLast? '\n' (by simp [hg])).symm
  · rintro ⟨core, tail, rfl, hcore, (rfl | rfl)⟩
    · left
      simpa using (matchCore_iff core).mpr hcore
    · right
      rw [List.getLast?_concat]
      simp only [List.dropLast_concat, Bool.and_eq_true, decide_eq_true_eq]
      exact ⟨by simp, (matchCore_iff core).mpr hcore⟩

/-- C4 (corrected): `is_valid_domain` accepts exactly the strings
matching the pattern — one or more groups of alphanumeric-or-hyphen
characters each followed by a dot, then a final alphabetic label of
length at least two, optionally followed by a single trailing newline
(Python `$`).  Hyphens are allowed anywhere in the non-final groups, so
`"-bad-.com"` is accepted, contrary to the claim. -/
theorem c4_is_valid_domain_characterised :
    (∀ s : List Char, is_valid_domain s = true ↔ RegexMatches s) ∧
    is_valid_domain "example.com".data = true ∧
    is_valid_domain "example".data = false ∧
    is_valid_domain "-bad-.com".data = true :=
  ⟨is_valid_domain_iff, by decide, by decide, by decide⟩

/-- C4 counterexample: the claim predicts `is_valid_domain("-bad-.com")`
is false (leading hyphen), but the character class `[a-zA-Z0-9-]` allows
a hyphen in any position, so the code returns true. -/
theorem c4_leading_hyphen_counterexample :
    is_valid_domain "-bad-.com".data = true ∧ is_valid_domain "-bad-.com".data ≠ false := by
  decide

/-! ### Claim C7 -/

/-- C7 (confirmed): the spec end-to-end record produces exactly the set
`{example.com, api.example.com}` and the written text is the two sorted
lines `api.example.com` and `example.com`, each closed by one newline. -/
theorem c7_end_to_end :
    process_data [⟨some (some "example.com".data),
        some (some "www.example.com\n*.api.example.com".data)⟩] =
      Except.ok ["example.com".data, "api.example.com".data] ∧
    write_subs_file ["example.com".data, "api.example.com".data] =
      "api.example.com\nexample.com\n".data := by
  constructor
  · decide
  · decide

end Subf
